import Mathlib

/-!
Shallow embedding of the my-redis repository (frame codec, connection
framing, shared state engine with TTL purge, expiration worker), with
theorems settling the specification claims.

Bytes are modelled as `Nat` (values < 256 on real inputs), machine
integers as `Nat` with explicit `2 ^ 64` bounds where the code checks
them, and a byte cursor as the list of bytes remaining after the
cursor position.
-/

/-- The two error kinds of `frame::Error`. -/
inductive FErr where
  | incomplete : FErr
  | protocol : FErr
deriving DecidableEq

/-- The two panics `Frame::parse` can reach: the `unimplemented!()` arm for
an unrecognised tag byte, and the out-of-bounds slice `&src.bytes()[..len]`
in the bulk branch, reachable in a release build when the `usize` addition
`len + 2` wraps (a debug build already panics on the addition inside
`check`; the model follows the release profile). -/
inductive PanicKind where
  | unimplementedTag : PanicKind
  | sliceOOB : PanicKind
deriving DecidableEq

/-- Result of a cursor operation in `frame.rs`: a value together with the
bytes remaining after the cursor, an error (`Error::Incomplete` or any
`Error::Other`, the latter all collapsed to `protocol`), a panic with its
source, or fuel exhaustion (an artifact of the fueled embedding of the
recursive grammar, proved unreachable below). -/
inductive PRes (α : Type) where
  | ok : α → List Nat → PRes α
  | err : FErr → PRes α
  | panic : PanicKind → PRes α
  | fuelOut : PRes α

/-- The `Frame` enum of `frame.rs`.  `Simple`/`Error` carry the utf-8 bytes
of the Rust `String`, `Bulk` the raw bytes. -/
inductive Frame where
  | Simple : List Nat → Frame
  | Error : List Nat → Frame
  | Integer : Nat → Frame
  | Bulk : List Nat → Frame
  | Null : Frame
  | Array : List Frame → Frame

/-- Sequencing for `PRes`, mirroring the `?` operator on cursor operations. -/
def pbind {α β : Type} : PRes α → (α → List Nat → PRes β) → PRes β
  | .ok a rest, f => f a rest
  | .err e, _ => .err e
  | .panic pk, _ => .panic pk
  | .fuelOut, _ => .fuelOut

/-- `get_u8`: pop one byte, `Incomplete` on an empty cursor. -/
def get_u8 : List Nat → PRes Nat
  | [] => .err .incomplete
  | b :: rest => .ok b rest

/-- `peek_u8`: read the next byte without consuming it. -/
def peek_u8 : List Nat → PRes Nat
  | [] => .err .incomplete
  | b :: rest => .ok b (b :: rest)

/-- `skip(src, n)`: advance the cursor by `n` bytes. -/
def skip (rem : List Nat) (n : Nat) : PRes Unit :=
  if rem.length < n then .err .incomplete else .ok () (rem.drop n)

/-- Index of the first position `i` with `rem[i] = '\r'` and
`rem[i+1] = '\n'` (the scan in `get_line`, which checks pairs up to the
last byte of the buffer). -/
def findCRLF : List Nat → Option Nat
  | [] => none
  | [_] => none
  | b :: c :: rest =>
    if b = 13 ∧ c = 10 then some 0
    else (findCRLF (c :: rest)).map (fun i => i + 1)

/-- `get_line`: the bytes before the first `\r\n`, cursor moved past the
terminator; `Incomplete` when no terminator is found. -/
def get_line (rem : List Nat) : PRes (List Nat) :=
  match findCRLF rem with
  | some i => .ok (rem.take i) (rem.drop (i + 2))
  | none => .err .incomplete

/-- Checked base-10 accumulation of `atoi::<u64>`: one step multiplies by
ten, adds the digit and fails on a non-digit byte or on exceeding
`u64::MAX`. -/
def atoiLoop : Nat → List Nat → Option Nat
  | acc, [] => some acc
  | acc, b :: bs =>
    if 48 ≤ b ∧ b ≤ 57 then
      if acc * 10 + (b - 48) < 2 ^ 64 then atoiLoop (acc * 10 + (b - 48)) bs else none
    else none

/-- `atoi::<u64>` on a byte slice: `none` on an empty slice, a non-digit
byte anywhere, or u64 overflow; otherwise the decimal value.  Modelled from
the documented semantics of the external `atoi` crate (not repository
code), which `get_decimal` calls. -/
def atoi : List Nat → Option Nat
  | [] => none
  | l => atoiLoop 0 l

/-- The `.ok_or_else(|| protocol error)` applied to the `atoi` result in
`get_decimal`. -/
def okOr : Option Nat → List Nat → PRes Nat
  | some v, rest => .ok v rest
  | none, _ => .err .protocol

/-- `get_decimal`: read a line and parse it as an unsigned 64-bit decimal;
a failed `atoi` is a protocol error. -/
def get_decimal (rem : List Nat) : PRes Nat :=
  pbind (get_line rem) (fun line rest => okOr (atoi line) rest)

/-- Rust `String::from_utf8` validity of a byte list (exact UTF-8:
overlongs, surrogates and values above U+10FFFF rejected). -/
def validUtf8 : List Nat → Bool
  | [] => true
  | b :: bs =>
    if b < 128 then validUtf8 bs
    else if 194 ≤ b ∧ b ≤ 223 then
      match bs with
      | c :: bs2 => if 128 ≤ c ∧ c ≤ 191 then validUtf8 bs2 else false
      | [] => false
    else if 224 ≤ b ∧ b ≤ 239 then
      match bs with
      | c :: d :: bs2 =>
        if (if b = 224 then 160 ≤ c ∧ c ≤ 191
            else if b = 237 then 128 ≤ c ∧ c ≤ 159
            else 128 ≤ c ∧ c ≤ 191) ∧ 128 ≤ d ∧ d ≤ 191
        then validUtf8 bs2 else false
      | _ => false
    else if 240 ≤ b ∧ b ≤ 244 then
      match bs with
      | c :: d :: e :: bs2 =>
        if (if b = 240 then 144 ≤ c ∧ c ≤ 191
            else if b = 244 then 128 ≤ c ∧ c ≤ 143
            else 128 ≤ c ∧ c ≤ 191) ∧ 128 ≤ d ∧ d ≤ 191 ∧ 128 ≤ e ∧ e ≤ 191
        then validUtf8 bs2 else false
      | _ => false
    else false

/-- The `for _ in 0..len { Frame::check(src)?; }` loop of the array branch
of `Frame::check`, parameterized by the checker used for each element. -/
def checkMany (ck : List Nat → PRes Unit) : Nat → List Nat → PRes Unit
  | 0, rem => .ok () rem
  | n + 1, rem => pbind (ck rem) (fun _ rest => checkMany ck n rest)

/-- Body of `Frame::check` for one frame, parameterized by the checker used
for nested array elements (tied to the fueled recursion below).  In the
bulk branch the source computes `len + 2` on `usize`; the model uses the
release-profile wrapping semantics `(len + 2) % 2 ^ 64` (a debug build
panics on the addition for `len ≥ 2 ^ 64 - 2`). -/
def checkBody (ck : List Nat → PRes Unit) (rem : List Nat) : PRes Unit :=
  match rem with
  | [] => .err .incomplete
  | b :: r =>
    if b = 43 then pbind (get_line r) (fun _ rest => .ok () rest)
    else if b = 45 then pbind (get_line r) (fun _ rest => .ok () rest)
    else if b = 58 then pbind (get_decimal r) (fun _ rest => .ok () rest)
    else if b = 36 then
      pbind (peek_u8 r) (fun c r2 =>
        if c = 45 then skip r2 4
        else pbind (get_decimal r2) (fun len rest =>
          skip rest ((len + 2) % 2 ^ 64)))
    else if b = 42 then
      pbind (get_decimal r) (fun len rest => checkMany ck len rest)
    else .err .protocol

/-- Fueled `Frame::check`; the fuel only bounds array nesting and is
always sufficient at the wrapper below. -/
def checkF : Nat → List Nat → PRes Unit
  | 0, _ => .fuelOut
  | fuel + 1, rem => checkBody (checkF fuel) rem

/-- `Frame::check` on a cursor at position 0 of `buf`. -/
def Frame.check (buf : List Nat) : PRes Unit :=
  checkF (buf.length + 1) buf

/-- The element loop of the array branch of `Frame::parse`. -/
def parseMany (p : List Nat → PRes Frame) : Nat → List Nat → PRes (List Frame)
  | 0, rem => .ok [] rem
  | n + 1, rem =>
    pbind (p rem) (fun f rest =>
      pbind (parseMany p n rest) (fun fs rest2 => .ok (f :: fs) rest2))

/-- Body of `Frame::parse` for one frame, parameterized by the parser used
for nested array elements.  The final arm is the `unimplemented!()` panic
for an unrecognised tag byte.  In the bulk branch `n = len + 2` wraps on
`usize` (release profile, as in `checkBody`), and the copy
`&src.bytes()[..len]` panics when `len` exceeds the remaining bytes —
reachable exactly when the wrap made the `remaining < n` guard pass. -/
def parseBody (p : List Nat → PRes Frame) (rem : List Nat) : PRes Frame :=
  match rem with
  | [] => .err .incomplete
  | b :: r =>
    if b = 43 then
      pbind (get_line r) (fun line rest =>
        if validUtf8 line then .ok (.Simple line) rest else .err .protocol)
    else if b = 45 then
      pbind (get_line r) (fun line rest =>
        if validUtf8 line then .ok (.Error line) rest else .err .protocol)
    else if b = 58 then
      pbind (get_decimal r) (fun v rest => .ok (.Integer v) rest)
    else if b = 36 then
      pbind (peek_u8 r) (fun c r2 =>
        if c = 45 then
          pbind (get_line r2) (fun line rest =>
            if line = [45, 49] then .ok .Null rest else .err .protocol)
        else
          pbind (get_decimal r2) (fun len rest =>
            if rest.length < (len + 2) % 2 ^ 64 then .err .incomplete
            else if rest.length < len then .panic .sliceOOB
            else .ok (.Bulk (rest.take len)) (rest.drop ((len + 2) % 2 ^ 64))))
    else if b = 42 then
      pbind (get_decimal r) (fun len rest =>
        pbind (parseMany p len rest) (fun fs rest2 => .ok (.Array fs) rest2))
    else .panic .unimplementedTag

/-- Fueled `Frame::parse`. -/
def parseF : Nat → List Nat → PRes Frame
  | 0, _ => .fuelOut
  | fuel + 1, rem => parseBody (parseF fuel) rem

/-- `Frame::parse` on a cursor at position 0 of `buf`. -/
def Frame.parse (buf : List Nat) : PRes Frame :=
  parseF (buf.length + 1) buf

/-- ASCII decimal digits of `n` (most significant first), with an explicit
fuel in the style of the standard library; models `write!(buf, "{}", val)`
for a `u64`. -/
def decDigitsCore : Nat → Nat → List Nat → List Nat
  | 0, _, acc => acc
  | fuel + 1, n, acc =>
    if n < 10 then (48 + n) :: acc
    else decDigitsCore fuel (n / 10) ((48 + n % 10) :: acc)

/-- ASCII decimal representation of a `u64`. -/
def decDigits (n : Nat) : List Nat :=
  decDigitsCore (n + 1) n []

/-- `Connection::write_decimal`: the decimal digits followed by `\r\n`.
The source formats through a 12-byte stack buffer, so a value needing more
than 12 digits actually yields an `io::Error`; the model covers the
in-range regime (every encoder theorem below uses single-digit lengths). -/
def write_decimal (v : Nat) : List Nat :=
  decDigits v ++ [13, 10]

/-- `Connection::write_value`: bytes emitted for one non-array frame;
`none` models the `unreachable!()` panic on a nested `Array`.  The source
writes the `'+'` tag for both `Simple` and `Error`, and omits the `'$'`
tag for `Bulk`; both are reproduced here verbatim. -/
def write_value : Frame → Option (List Nat)
  | .Simple val => some (43 :: (val ++ [13, 10]))
  | .Error val => some (43 :: (val ++ [13, 10]))
  | .Integer val => some (58 :: write_decimal val)
  | .Null => some [36, 45, 49, 13, 10]
  | .Bulk val => some (write_decimal val.length ++ val ++ [13, 10])
  | .Array _ => none

/-- `Connection::write_frame`: an array emits `'*'`, its length line, then
each element through `write_value`; anything else goes straight to
`write_value`. -/
def write_frame : Frame → Option (List Nat)
  | .Array val =>
    val.foldl
      (fun acc f => acc.bind (fun l => (write_value f).map (fun w => l ++ w)))
      (some (42 :: write_decimal val.length))
  | f => write_value f

/-- Result of `Connection::parse_frame`: a decoded frame with the buffer
advanced past it, `Ok(None)` asking for more bytes, a surfaced frame
error, or a panic propagated from `Frame::parse`. -/
inductive PFRes where
  | frame : Frame → List Nat → PFRes
  | needMore : PFRes
  | fail : FErr → PFRes
  | panic : PFRes

/-- `Connection::parse_frame`: `Frame::check` over the buffer; on success
re-parse from position 0 and advance the buffer by the checked length; an
`Incomplete` check means more data is needed; other check errors surface. -/
def parse_frame (buf : List Nat) : PFRes :=
  match Frame.check buf with
  | .ok _ rest =>
    match Frame.parse buf with
    | .ok f _ => .frame f (buf.drop (buf.length - rest.length))
    | .err e => .fail e
    | .panic _ => .panic
    | .fuelOut => .panic
  | .err .incomplete => .needMore
  | .err e => .fail e
  | .panic _ => .panic
  | .fuelOut => .panic

/-- Result of `Connection::read_frame`: a frame plus the retained buffer
and the unread remainder of the stream, clean end of stream, the
"connection reset by peer" error, a surfaced frame error, or a panic. -/
inductive RFRes where
  | frame : Frame → List Nat → List (List Nat) → RFRes
  | eof : RFRes
  | reset : RFRes
  | fail : FErr → RFRes
  | panic : RFRes

/-- `Connection::read_frame`, with the stream modelled as the list of byte
chunks successive `read_buf` calls return; an exhausted list (or an empty
chunk) is the 0-byte read of a closed stream. -/
def read_frame : List Nat → List (List Nat) → RFRes
  | buf, [] =>
    match parse_frame buf with
    | .frame f rest => .frame f rest []
    | .needMore => if buf = [] then .eof else .reset
    | .fail e => .fail e
    | .panic => .panic
  | buf, c :: cs =>
    match parse_frame buf with
    | .frame f rest => .frame f rest (c :: cs)
    | .needMore =>
      if c = [] then (if buf = [] then .eof else .reset)
      else read_frame (buf ++ c) cs
    | .fail e => .fail e
    | .panic => .panic

/-- An entry of the key-value store (`db.rs`): the value bytes and the
optional expiration instant.  Instants are modelled as `Nat`. -/
structure Entry where
  data : List Nat
  expires_at : Option Nat
deriving DecidableEq

/-- The `State` struct behind the mutex: the key-value entries (as a
lookup function), the pub/sub channel registry (only channel existence is
relevant to the claims settled here), the `(deadline, key)` expiration
index — the `BTreeSet` modelled as a list ascending in the order the set
iterates, so `iter().next()` is the head — and the shutdown flag. -/
structure State where
  entries : String → Option Entry
  pub_sub : String → Bool
  expirations : List (Nat × String)
  shutdown : Bool

/-- The freshly created state of `Db::new`. -/
def initState : State where
  entries := fun _ => none
  pub_sub := fun _ => false
  expirations := []
  shutdown := false

/-- `HashMap::insert` on the entries map, also yielding the previous
value. -/
def insertEntry (m : String → Option Entry) (k : String) (e : Entry) :
    (String → Option Entry) × Option Entry :=
  (fun k2 => if k2 = k then some e else m k2, m k)

/-- `HashMap::remove` on the entries map. -/
def removeKey (m : String → Option Entry) (k : String) : String → Option Entry :=
  fun k2 => if k2 = k then none else m k2

/-- `State::next_expiration`: deadline of the first element the expiration
set yields. -/
def State.next_expiration (st : State) : Option Nat :=
  st.expirations.head?.map (fun p => p.1)

/-- `Db::get`: look the key up and clone the data. -/
def Db.get (st : State) (key : String) : Option (List Nat) :=
  (st.entries key).map (fun e => e.data)

/-- `Db::set`, with `Instant::now()` passed in as `now`.  Computes
`expires_at` and the notify flag, inserts the new entry, and removes the
previous entry's `(deadline, key)` pair from `expirations` when present.
The source never inserts the new pair into `expirations`.  Returns the
state at mutex release together with the notify flag. -/
def Db.set (st : State) (key : String) (value : List Nat) (expire : Option Nat)
    (now : Nat) : State × Bool :=
  let expires_at := expire.map (fun d => now + d)
  let notify :=
    match expire with
    | some d =>
      match st.next_expiration with
      | some expiration => decide (now + d < expiration)
      | none => true
    | none => false
  let ins := insertEntry st.entries key ⟨value, expires_at⟩
  let expirations2 :=
    match ins.2 with
    | some prev =>
      match prev.expires_at with
      | some when => st.expirations.erase (when, key)
      | none => st.expirations
    | none => st.expirations
  ({ st with entries := ins.1, expirations := expirations2 }, notify)

/-- `Db::subscribe` as it affects the shared state: get or create the
channel's broadcast sender. -/
def Db.subscribe (st : State) (key : String) : State :=
  { st with pub_sub := fun c => if c = key then true else st.pub_sub c }

/-- `Db::publish` leaves the guarded state unchanged (it only sends on an
existing broadcast channel). -/
def Db.publish (st : State) : State :=
  st

/-- `Db::shutdown_purge_task`: set the shutdown flag (the notify that
follows does not change the guarded state). -/
def Db.shutdown_purge_task (st : State) : State :=
  { st with shutdown := true }

/-- The `while let` loop of `purge_expired_keys`: pop the earliest pair
while its deadline is not after `now`, removing the corresponding entry;
stop at the first later deadline and return it. -/
def purgeLoop (now : Nat) :
    (String → Option Entry) → List (Nat × String) →
    (String → Option Entry) × List (Nat × String) × Option Nat
  | entries, [] => (entries, [], none)
  | entries, (when, key) :: rest =>
    if now < when then (entries, (when, key) :: rest, some when)
    else purgeLoop now (removeKey entries key) rest

/-- `Shared::purge_expired_keys` with `Instant::now()` passed as `now`:
under shutdown return `None` untouched, otherwise run the purge loop. -/
def Shared.purge_expired_keys (st : State) (now : Nat) : State × Option Nat :=
  if st.shutdown then (st, none)
  else
    let r := purgeLoop now st.entries st.expirations
    ({ st with entries := r.1, expirations := r.2.1 }, r.2.2)

/-- How one iteration of the `purge_expired_tasks` worker waits after
`purge_expired_keys` returns, before looping. -/
inductive WorkerWait where
  | sleepUntilOrNotify : Nat → WorkerWait
  | waitNotify : WorkerWait
  | immediate : WorkerWait
deriving DecidableEq

/-- The wait performed by the body of the `while !shared.is_shutdown()`
loop in `purge_expired_tasks`: `Some(when)` selects between
`sleep_until(when)` and `notified()`; the `else` branch of the source is
empty, so a `None` purge result re-enters the loop immediately. -/
def purge_expired_tasks_wait : Option Nat → WorkerWait
  | some when => .sleepUntilOrNotify when
  | none => .immediate

/-- One state-engine operation, for stating trace properties: a `set`
(with its own clock reading), a purge pass of the expiration worker, a
subscribe, or a publish. -/
inductive Op where
  | set : String → List Nat → Option Nat → Nat → Op
  | purge : Nat → Op
  | subscribe : String → Op
  | publish : Op

/-- Effect of one operation on the guarded state. -/
def applyOp (st : State) : Op → State
  | .set k v e now => (Db.set st k v e now).1
  | .purge now => (Shared.purge_expired_keys st now).1
  | .subscribe ch => Db.subscribe st ch
  | .publish => Db.publish st

/-- Whether an operation is a `set` on the given key. -/
def Op.isSetOn (op : Op) (k : String) : Bool :=
  match op with
  | .set k2 _ _ _ => k2 = k
  | _ => false


theorem pbind_ok_inv {α β : Type} {x : PRes α} {k : α → List Nat → PRes β}
    {b : β} {rest : List Nat} (h : pbind x k = .ok b rest) :
    ∃ a r, x = .ok a r ∧ k a r = .ok b rest := by
  cases x with
  | ok a r => exact ⟨a, r, rfl, h⟩
  | err e => simp [pbind] at h
  | panic pk => simp [pbind] at h
  | fuelOut => simp [pbind] at h

theorem skip_ok_inv {rem : List Nat} {n : Nat} {u : Unit} {rest : List Nat}
    (h : skip rem n = .ok u rest) : n ≤ rem.length ∧ rest = rem.drop n := by
  unfold skip at h
  split at h
  · cases h
  · cases h
    exact ⟨Nat.le_of_not_lt (by assumption), rfl⟩

theorem skip_of_le {rem : List Nat} {n : Nat} (h : n ≤ rem.length) :
    skip rem n = .ok () (rem.drop n) := by
  unfold skip
  rw [if_neg (Nat.not_lt.mpr h)]

theorem findCRLF_le : ∀ (rem : List Nat) (i : Nat), findCRLF rem = some i → i + 2 ≤ rem.length := by
  intro rem
  induction rem with
  | nil => intro i h; simp [findCRLF] at h
  | cons b bs ih =>
    intro i h
    cases bs with
    | nil => simp [findCRLF] at h
    | cons c rest =>
      simp only [findCRLF] at h
      split at h
      · cases h
        simp
      · rcases Option.map_eq_some'.mp h with ⟨j, hj, hji⟩
        have hlen := ih j hj
        subst hji
        simp only [List.length_cons] at hlen ⊢
        omega

theorem get_line_ok {rem line rest : List Nat} (h : get_line rem = .ok line rest) :
    line = rem.take line.length ∧ rest = rem.drop (line.length + 2) ∧
      line.length + 2 ≤ rem.length := by
  unfold get_line at h
  cases hf : findCRLF rem with
  | none => rw [hf] at h; cases h
  | some i =>
    rw [hf] at h
    cases h
    have hle := findCRLF_le rem i hf
    have hlen : (rem.take i).length = i := by
      simp only [List.length_take]
      omega
    rw [hlen]
    exact ⟨rfl, rfl, hle⟩

theorem get_line_lt {rem line rest : List Nat} (h : get_line rem = .ok line rest) :
    rest.length < rem.length := by
  rcases get_line_ok h with ⟨-, hrest, hle⟩
  subst hrest
  simp only [List.length_drop]
  omega

theorem get_decimal_ok {rem : List Nat} {v : Nat} {rest : List Nat}
    (h : get_decimal rem = .ok v rest) :
    ∃ line, get_line rem = .ok line rest ∧ atoi line = some v := by
  unfold get_decimal at h
  rcases pbind_ok_inv h with ⟨line, r2, hl, hk⟩
  cases ha : atoi line with
  | some w =>
    rw [ha] at hk
    simp only [okOr] at hk
    cases hk
    exact ⟨line, hl, ha⟩
  | none => rw [ha] at hk; simp [okOr] at hk

theorem get_decimal_lt {rem : List Nat} {v : Nat} {rest : List Nat}
    (h : get_decimal rem = .ok v rest) : rest.length < rem.length := by
  rcases get_decimal_ok h with ⟨line, hl, -⟩
  exact get_line_lt hl

theorem parseMany_le {p : List Nat → PRes Frame}
    (hp : ∀ rem f rest, p rem = .ok f rest → rest.length ≤ rem.length) :
    ∀ (n : Nat) (rem : List Nat) (fs : List Frame) (rest : List Nat),
      parseMany p n rem = .ok fs rest → rest.length ≤ rem.length := by
  intro n
  induction n with
  | zero =>
    intro rem fs rest h
    cases h
    exact Nat.le_refl _
  | succ m ih =>
    intro rem fs rest h
    rcases pbind_ok_inv h with ⟨f, r1, hpr, hk⟩
    rcases pbind_ok_inv hk with ⟨fs2, r2, hm, hk2⟩
    cases hk2
    exact Nat.le_trans (ih r1 fs2 rest hm) (hp rem f r1 hpr)

theorem peek_u8_ok_inv {r : List Nat} {c : Nat} {r2 : List Nat}
    (h : peek_u8 r = .ok c r2) : r2 = r ∧ ∃ t, r = c :: t := by
  cases r with
  | nil => simp [peek_u8] at h
  | cons x t =>
    simp only [peek_u8] at h
    cases h
    exact ⟨rfl, t, rfl⟩

theorem get_line_ne_fuelOut {rem : List Nat} : get_line rem ≠ .fuelOut := by
  unfold get_line
  cases findCRLF rem <;> simp

theorem get_line_ne_panic {rem : List Nat} {pk : PanicKind} :
    get_line rem ≠ .panic pk := by
  unfold get_line
  cases findCRLF rem <;> simp

theorem get_decimal_ne_fuelOut {rem : List Nat} : get_decimal rem ≠ .fuelOut := by
  unfold get_decimal
  cases hl : get_line rem with
  | ok line r2 => simp only [pbind]; cases atoi line <;> simp [okOr]
  | err e => simp [pbind]
  | panic pk => exact absurd hl get_line_ne_panic
  | fuelOut => exact absurd hl get_line_ne_fuelOut

theorem get_decimal_ne_panic {rem : List Nat} {pk : PanicKind} :
    get_decimal rem ≠ .panic pk := by
  unfold get_decimal
  cases hl : get_line rem with
  | ok line r2 => simp only [pbind]; cases atoi line <;> simp [okOr]
  | err e => simp [pbind]
  | panic pk2 => exact absurd hl get_line_ne_panic
  | fuelOut => exact absurd hl get_line_ne_fuelOut

theorem peek_u8_ne_fuelOut {rem : List Nat} : peek_u8 rem ≠ .fuelOut := by
  cases rem <;> simp [peek_u8]

theorem skip_ne_fuelOut {rem : List Nat} {n : Nat} : skip rem n ≠ .fuelOut := by
  unfold skip
  split <;> simp

theorem skip_ne_panic {rem : List Nat} {n : Nat} {pk : PanicKind} :
    skip rem n ≠ .panic pk := by
  unfold skip
  split <;> simp

theorem pbind_fuelOut_inv {α β : Type} {x : PRes α} {k : α → List Nat → PRes β}
    (h : pbind x k = .fuelOut) :
    x = .fuelOut ∨ ∃ a r, x = .ok a r ∧ k a r = .fuelOut := by
  cases x with
  | ok a r => exact Or.inr ⟨a, r, rfl, h⟩
  | err e => simp [pbind] at h
  | panic pk => simp [pbind] at h
  | fuelOut => exact Or.inl rfl

theorem parseBody_lt {p : List Nat → PRes Frame}
    (hp : ∀ rem f rest, p rem = .ok f rest → rest.length ≤ rem.length) :
    ∀ rem f rest, parseBody p rem = .ok f rest → rest.length < rem.length := by
  intro rem f rest h
  cases rem with
  | nil => simp [parseBody] at h
  | cons b r =>
    simp only [parseBody] at h
    have hr : r.length < (b :: r).length := by simp
    by_cases hb1 : b = 43
    · rw [if_pos hb1] at h
      rcases pbind_ok_inv h with ⟨line, r2, hl, hk⟩
      split at hk
      · cases hk; exact Nat.lt_trans (get_line_lt hl) hr
      · cases hk
    · rw [if_neg hb1] at h
      by_cases hb2 : b = 45
      · rw [if_pos hb2] at h
        rcases pbind_ok_inv h with ⟨line, r2, hl, hk⟩
        split at hk
        · cases hk; exact Nat.lt_trans (get_line_lt hl) hr
        · cases hk
      · rw [if_neg hb2] at h
        by_cases hb3 : b = 58
        · rw [if_pos hb3] at h
          rcases pbind_ok_inv h with ⟨v, r2, hd, hk⟩
          cases hk
          exact Nat.lt_trans (get_decimal_lt hd) hr
        · rw [if_neg hb3] at h
          by_cases hb4 : b = 36
          · rw [if_pos hb4] at h
            rcases pbind_ok_inv h with ⟨c, r2, hpk, hk⟩
            rcases peek_u8_ok_inv hpk with ⟨hr2, t, hrt⟩
            subst hr2
            by_cases hc : c = 45
            · rw [if_pos hc] at hk
              rcases pbind_ok_inv hk with ⟨line, r3, hl, hk2⟩
              split at hk2
              · cases hk2; exact Nat.lt_trans (get_line_lt hl) hr
              · cases hk2
            · rw [if_neg hc] at hk
              rcases pbind_ok_inv hk with ⟨len, r3, hd, hk2⟩
              split at hk2
              · cases hk2
              · split at hk2
                · cases hk2
                · cases hk2
                  have h3 := get_decimal_lt hd
                  have h4 : (r3.drop ((len + 2) % 2 ^ 64)).length ≤ r3.length := by
                    simp [List.length_drop]
                  omega
          · rw [if_neg hb4] at h
            by_cases hb5 : b = 42
            · rw [if_pos hb5] at h
              rcases pbind_ok_inv h with ⟨len, r1, hd, hk⟩
              rcases pbind_ok_inv hk with ⟨fs, r2, hm, hk2⟩
              cases hk2
              have h1 := get_decimal_lt hd
              have h2 := parseMany_le hp len r1 fs rest hm
              omega
            · rw [if_neg hb5] at h
              cases h

theorem parseF_lt : ∀ (fuel : Nat) (rem : List Nat) (f : Frame) (rest : List Nat),
    parseF fuel rem = .ok f rest → rest.length < rem.length := by
  intro fuel
  induction fuel with
  | zero => intro rem f rest h; simp [parseF] at h
  | succ n ih =>
    intro rem f rest h
    exact parseBody_lt (fun rem2 f2 rest2 hh => Nat.le_of_lt (ih rem2 f2 rest2 hh)) rem f rest h

theorem parseMany_ne_fuelOut {p : List Nat → PRes Frame} {B : Nat}
    (h1 : ∀ rem, rem.length < B → p rem ≠ .fuelOut)
    (h2 : ∀ rem f rest, p rem = .ok f rest → rest.length < rem.length) :
    ∀ (n : Nat) (rem : List Nat), rem.length < B → parseMany p n rem ≠ .fuelOut := by
  intro n
  induction n with
  | zero => intro rem hb; simp [parseMany]
  | succ m ih =>
    intro rem hb hcon
    rcases pbind_fuelOut_inv hcon with hx | ⟨f, r1, hp1, hk⟩
    · exact h1 rem hb hx
    · rcases pbind_fuelOut_inv hk with hy | ⟨fs, r2, hm, hk2⟩
      · exact ih r1 (Nat.lt_trans (h2 rem f r1 hp1) hb) hy
      · cases hk2

theorem parseF_ne_fuelOut : ∀ (fuel : Nat) (rem : List Nat), rem.length < fuel →
    parseF fuel rem ≠ .fuelOut := by
  intro fuel
  induction fuel with
  | zero => intro rem h; omega
  | succ n ih =>
    intro rem hlen hcon
    cases rem with
    | nil => simp [parseF, parseBody] at hcon
    | cons b r =>
      simp only [parseF, parseBody] at hcon
      by_cases hb1 : b = 43
      · rw [if_pos hb1] at hcon
        rcases pbind_fuelOut_inv hcon with hx | ⟨line, r2, hl, hk⟩
        · exact get_line_ne_fuelOut hx
        · split at hk <;> cases hk
      · rw [if_neg hb1] at hcon
        by_cases hb2 : b = 45
        · rw [if_pos hb2] at hcon
          rcases pbind_fuelOut_inv hcon with hx | ⟨line, r2, hl, hk⟩
          · exact get_line_ne_fuelOut hx
          · split at hk <;> cases hk
        · rw [if_neg hb2] at hcon
          by_cases hb3 : b = 58
          · rw [if_pos hb3] at hcon
            rcases pbind_fuelOut_inv hcon with hx | ⟨v, r2, hd, hk⟩
            · exact get_decimal_ne_fuelOut hx
            · cases hk
          · rw [if_neg hb3] at hcon
            by_cases hb4 : b = 36
            · rw [if_pos hb4] at hcon
              rcases pbind_fuelOut_inv hcon with hx | ⟨c, r2, hpk, hk⟩
              · exact peek_u8_ne_fuelOut hx
              · by_cases hc : c = 45
                · rw [if_pos hc] at hk
                  rcases pbind_fuelOut_inv hk with hy | ⟨line, r3, hl, hk2⟩
                  · exact get_line_ne_fuelOut hy
                  · split at hk2 <;> cases hk2
                · rw [if_neg hc] at hk
                  rcases pbind_fuelOut_inv hk with hy | ⟨len, r3, hd, hk2⟩
                  · exact get_decimal_ne_fuelOut hy
                  · split at hk2
                    · cases hk2
                    · split at hk2 <;> cases hk2
            · rw [if_neg hb4] at hcon
              by_cases hb5 : b = 42
              · rw [if_pos hb5] at hcon
                rcases pbind_fuelOut_inv hcon with hx | ⟨len, r1, hd, hk⟩
                · exact get_decimal_ne_fuelOut hx
                · rcases pbind_fuelOut_inv hk with hy | ⟨fs, r2, hm, hk2⟩
                  · have hlt : r1.length < n := by
                      have := get_decimal_lt hd
                      simp only [List.length_cons] at hlen
                      omega
                    exact parseMany_ne_fuelOut ih (parseF_lt n) len r1 hlt hy
                  · cases hk2
              · rw [if_neg hb5] at hcon
                cases hcon

theorem checkMany_of_parseMany {p : List Nat → PRes Frame} {ck : List Nat → PRes Unit}
    (h1 : ∀ rem f rest, p rem = .ok f rest → ck rem = .ok () rest) :
    ∀ (n : Nat) (rem : List Nat) (fs : List Frame) (rest : List Nat),
      parseMany p n rem = .ok fs rest → checkMany ck n rem = .ok () rest := by
  intro n
  induction n with
  | zero =>
    intro rem fs rest h
    cases h
    rfl
  | succ m ih =>
    intro rem fs rest h
    rcases pbind_ok_inv h with ⟨f, r1, hp1, hk⟩
    rcases pbind_ok_inv hk with ⟨fs2, r2, hm, hk2⟩
    cases hk2
    simp only [checkMany]
    rw [h1 rem f r1 hp1]
    simp only [pbind]
    exact ih r1 fs2 rest hm

theorem checkBody_of_parseBody {p : List Nat → PRes Frame} {ck : List Nat → PRes Unit}
    (hmany : ∀ n rem fs rest, parseMany p n rem = .ok fs rest → checkMany ck n rem = .ok () rest) :
    ∀ rem f rest, parseBody p rem = .ok f rest → checkBody ck rem = .ok () rest := by
  intro rem f rest h
  cases rem with
  | nil => simp [parseBody] at h
  | cons b r =>
    simp only [parseBody] at h
    simp only [checkBody]
    by_cases hb1 : b = 43
    · rw [if_pos hb1] at h ⊢
      rcases pbind_ok_inv h with ⟨line, r2, hl, hk⟩
      rw [hl]
      simp only [pbind]
      split at hk <;> cases hk
      rfl
    · rw [if_neg hb1] at h ⊢
      by_cases hb2 : b = 45
      · rw [if_pos hb2] at h ⊢
        rcases pbind_ok_inv h with ⟨line, r2, hl, hk⟩
        rw [hl]
        simp only [pbind]
        split at hk <;> cases hk
        rfl
      · rw [if_neg hb2] at h ⊢
        by_cases hb3 : b = 58
        · rw [if_pos hb3] at h ⊢
          rcases pbind_ok_inv h with ⟨v, r2, hd, hk⟩
          cases hk
          rw [hd]
          simp only [pbind]
        · rw [if_neg hb3] at h ⊢
          by_cases hb4 : b = 36
          · rw [if_pos hb4] at h ⊢
            rcases pbind_ok_inv h with ⟨c, r2, hpk, hk⟩
            rw [hpk]
            simp only [pbind]
            by_cases hc : c = 45
            · rw [if_pos hc] at hk ⊢
              rcases pbind_ok_inv hk with ⟨line, r3, hl, hk2⟩
              by_cases hline : line = [45, 49]
              · rw [if_pos hline] at hk2
                cases hk2
                rcases get_line_ok hl with ⟨-, hdrop, hle⟩
                rw [hline] at hdrop hle
                have h2 : ([45, 49] : List Nat).length + 2 = 4 := rfl
                rw [h2] at hdrop hle
                rw [hdrop]
                exact skip_of_le hle
              · rw [if_neg hline] at hk2
                cases hk2
            · rw [if_neg hc] at hk ⊢
              rcases pbind_ok_inv hk with ⟨len, r3, hd, hk2⟩
              rw [hd]
              simp only [pbind]
              by_cases hlt : r3.length < (len + 2) % 2 ^ 64
              · rw [if_pos hlt] at hk2
                cases hk2
              · rw [if_neg hlt] at hk2
                by_cases hlen : r3.length < len
                · rw [if_pos hlen] at hk2
                  cases hk2
                · rw [if_neg hlen] at hk2
                  cases hk2
                  exact skip_of_le (Nat.le_of_not_lt hlt)
          · rw [if_neg hb4] at h ⊢
            by_cases hb5 : b = 42
            · rw [if_pos hb5] at h ⊢
              rcases pbind_ok_inv h with ⟨len, r1, hd, hk⟩
              rcases pbind_ok_inv hk with ⟨fs, r2, hm, hk2⟩
              cases hk2
              rw [hd]
              simp only [pbind]
              exact hmany len r1 fs rest hm
            · rw [if_neg hb5] at h
              cases h

theorem checkF_of_parseF : ∀ (fuel : Nat) (rem : List Nat) (f : Frame) (rest : List Nat),
    parseF fuel rem = .ok f rest → checkF fuel rem = .ok () rest := by
  intro fuel
  induction fuel with
  | zero => intro rem f rest h; simp [parseF] at h
  | succ n ih =>
    intro rem f rest h
    exact checkBody_of_parseBody (checkMany_of_parseMany ih) rem f rest h

theorem pbind_panic_inv {α β : Type} {x : PRes α} {k : α → List Nat → PRes β}
    {pk : PanicKind} (h : pbind x k = .panic pk) :
    x = .panic pk ∨ ∃ a r, x = .ok a r ∧ k a r = .panic pk := by
  cases x with
  | ok a r => exact Or.inr ⟨a, r, rfl, h⟩
  | err e => simp [pbind] at h
  | panic pk2 =>
    simp only [pbind] at h
    injection h with h2
    exact Or.inl (h2 ▸ rfl)
  | fuelOut => simp [pbind] at h

theorem peek_u8_ne_panic {rem : List Nat} {pk : PanicKind} :
    peek_u8 rem ≠ .panic pk := by
  cases rem <;> simp [peek_u8]

theorem parseMany_ne_unimp {p : List Nat → PRes Frame} {ck : List Nat → PRes Unit}
    (h1 : ∀ rem rest, ck rem = .ok () rest → p rem ≠ .panic .unimplementedTag)
    (h2 : ∀ rem f rest, p rem = .ok f rest → ck rem = .ok () rest) :
    ∀ (n : Nat) (rem rest : List Nat), checkMany ck n rem = .ok () rest →
      parseMany p n rem ≠ .panic .unimplementedTag := by
  intro n
  induction n with
  | zero => intro rem rest hc; simp [parseMany]
  | succ m ih =>
    intro rem rest hc hcon
    rcases pbind_ok_inv hc with ⟨u, r1, hck, hk⟩
    cases u
    rcases pbind_panic_inv hcon with hx | ⟨f, r2, hp1, hk2⟩
    · exact h1 rem r1 hck hx
    · have hsync := h2 rem f r2 hp1
      rw [hck] at hsync
      injection hsync with hval hrest
      subst hrest
      rcases pbind_panic_inv hk2 with hy | ⟨fs, r3, hm, hk3⟩
      · exact ih r1 rest hk hy
      · cases hk3

theorem parseBody_ne_unimp {p : List Nat → PRes Frame} {ck : List Nat → PRes Unit}
    (hmany : ∀ n rem rest, checkMany ck n rem = .ok () rest →
      parseMany p n rem ≠ .panic .unimplementedTag) :
    ∀ rem rest, checkBody ck rem = .ok () rest →
      parseBody p rem ≠ .panic .unimplementedTag := by
  intro rem rest hc hcon
  cases rem with
  | nil => simp [checkBody] at hc
  | cons b r =>
    simp only [checkBody] at hc
    simp only [parseBody] at hcon
    by_cases hb1 : b = 43
    · rw [if_pos hb1] at hcon
      rcases pbind_panic_inv hcon with hx | ⟨line, r2, hl, hk⟩
      · exact get_line_ne_panic hx
      · split at hk <;> cases hk
    · rw [if_neg hb1] at hc hcon
      by_cases hb2 : b = 45
      · rw [if_pos hb2] at hcon
        rcases pbind_panic_inv hcon with hx | ⟨line, r2, hl, hk⟩
        · exact get_line_ne_panic hx
        · split at hk <;> cases hk
      · rw [if_neg hb2] at hc hcon
        by_cases hb3 : b = 58
        · rw [if_pos hb3] at hcon
          rcases pbind_panic_inv hcon with hx | ⟨v, r2, hd, hk⟩
          · exact get_decimal_ne_panic hx
          · cases hk
        · rw [if_neg hb3] at hc hcon
          by_cases hb4 : b = 36
          · rw [if_pos hb4] at hcon
            rcases pbind_panic_inv hcon with hx | ⟨c, r2, hpk, hk⟩
            · exact peek_u8_ne_panic hx
            · by_cases hcc : c = 45
              · rw [if_pos hcc] at hk
                rcases pbind_panic_inv hk with hy | ⟨line, r3, hl, hk2⟩
                · exact get_line_ne_panic hy
                · split at hk2 <;> cases hk2
              · rw [if_neg hcc] at hk
                rcases pbind_panic_inv hk with hy | ⟨len, r3, hd, hk2⟩
                · exact get_decimal_ne_panic hy
                · split at hk2
                  · cases hk2
                  · split at hk2
                    · simp at hk2
                    · cases hk2
          · rw [if_neg hb4] at hc hcon
            by_cases hb5 : b = 42
            · rw [if_pos hb5] at hc hcon
              rcases pbind_ok_inv hc with ⟨len, r1, hd, hkc⟩
              rcases pbind_panic_inv hcon with hx | ⟨len2, r2, hd2, hk⟩
              · exact get_decimal_ne_panic hx
              · rw [hd] at hd2
                cases hd2
                rcases pbind_panic_inv hk with hy | ⟨fs, r3, hm, hk2⟩
                · exact hmany len r1 rest hkc hy
                · cases hk2
            · rw [if_neg hb5] at hc
              cases hc

theorem parseF_ne_unimp : ∀ (fuel : Nat) (rem rest : List Nat),
    checkF fuel rem = .ok () rest → parseF fuel rem ≠ .panic .unimplementedTag := by
  intro fuel
  induction fuel with
  | zero => intro rem rest hc; simp [checkF] at hc
  | succ n ih =>
    intro rem rest hc
    exact parseBody_ne_unimp (parseMany_ne_unimp ih (checkF_of_parseF n)) rem rest hc

/-- ASCII digit predicate, as `atoi` classifies bytes. -/
def isDigitByte (b : Nat) : Bool :=
  decide (48 ≤ b ∧ b ≤ 57)

/-- Value of an all-digit ASCII byte list read in base 10. -/
def digitsVal (l : List Nat) : Nat :=
  l.foldl (fun a b => a * 10 + (b - 48)) 0

theorem atoiLoop_some : ∀ (l : List Nat) (acc v : Nat), acc < 2 ^ 64 →
    atoiLoop acc l = some v →
    v = l.foldl (fun a b => a * 10 + (b - 48)) acc ∧ v < 2 ^ 64 ∧
      l.all isDigitByte = true := by
  intro l
  induction l with
  | nil =>
    intro acc v ha h
    cases h
    exact ⟨rfl, ha, rfl⟩
  | cons b bs ih =>
    intro acc v ha h
    simp only [atoiLoop] at h
    by_cases hd : 48 ≤ b ∧ b ≤ 57
    · rw [if_pos hd] at h
      by_cases ho : acc * 10 + (b - 48) < 2 ^ 64
      · rw [if_pos ho] at h
        rcases ih _ v ho h with ⟨h1, h2, h3⟩
        refine ⟨?_, h2, ?_⟩
        · rw [List.foldl_cons]
          exact h1
        · simp [List.all_cons, isDigitByte, hd, h3]
      · rw [if_neg ho] at h
        cases h
    · rw [if_neg hd] at h
      cases h

theorem atoiLoop_nondigit : ∀ (l : List Nat) (acc : Nat),
    l.all isDigitByte = false → atoiLoop acc l = none := by
  intro l
  induction l with
  | nil => intro acc h; simp at h
  | cons b bs ih =>
    intro acc h
    simp only [atoiLoop]
    by_cases hd : 48 ≤ b ∧ b ≤ 57
    · rw [if_pos hd]
      by_cases ho : acc * 10 + (b - 48) < 2 ^ 64
      · rw [if_pos ho]
        apply ih
        simp only [List.all_cons, isDigitByte] at h
        simpa [decide_eq_true_eq, hd] using h
      · rw [if_neg ho]
    · rw [if_neg hd]

theorem atoiLoop_overflow : ∀ (l : List Nat) (acc : Nat), acc < 2 ^ 64 →
    l.all isDigitByte = true →
    2 ^ 64 ≤ l.foldl (fun a b => a * 10 + (b - 48)) acc → atoiLoop acc l = none := by
  intro l
  induction l with
  | nil =>
    intro acc ha hdig hov
    simp only [List.foldl_nil] at hov
    omega
  | cons b bs ih =>
    intro acc ha hdig hov
    simp only [atoiLoop]
    simp only [List.all_cons, Bool.and_eq_true] at hdig
    have hd : 48 ≤ b ∧ b ≤ 57 := by
      have := hdig.1
      simpa [isDigitByte, decide_eq_true_eq] using this
    rw [if_pos hd]
    by_cases ho : acc * 10 + (b - 48) < 2 ^ 64
    · rw [if_pos ho]
      exact ih _ ho hdig.2 (by simpa [List.foldl_cons] using hov)
    · rw [if_neg ho]

theorem atoi_some {l : List Nat} {v : Nat} (h : atoi l = some v) :
    v = digitsVal l ∧ v < 2 ^ 64 ∧ l ≠ [] ∧ l.all isDigitByte = true := by
  cases l with
  | nil => simp [atoi] at h
  | cons b bs =>
    have h2 : atoiLoop 0 (b :: bs) = some v := h
    rcases atoiLoop_some (b :: bs) 0 v (by norm_num) h2 with ⟨h1, hlt, hall⟩
    exact ⟨h1, hlt, by simp, hall⟩

theorem atoi_none {l : List Nat}
    (h : l = [] ∨ l.all isDigitByte = false ∨ 2 ^ 64 ≤ digitsVal l) :
    atoi l = none := by
  rcases h with h | h | h
  · subst h; rfl
  · cases l with
    | nil => rfl
    | cons b bs => exact atoiLoop_nondigit (b :: bs) 0 h
  · cases l with
    | nil => rfl
    | cons b bs =>
      by_cases hall : (b :: bs).all isDigitByte = true
      · exact atoiLoop_overflow (b :: bs) 0 (by norm_num) hall h
      · exact atoiLoop_nondigit (b :: bs) 0 (Bool.eq_false_iff.mpr hall)

theorem purgeLoop_eq (now : Nat) :
    ∀ (exps : List (Nat × String)) (entries : String → Option Entry),
    purgeLoop now entries exps =
      ((exps.takeWhile (fun p => decide (p.1 ≤ now))).foldl
          (fun e p => removeKey e p.2) entries,
        exps.dropWhile (fun p => decide (p.1 ≤ now)),
        (exps.dropWhile (fun p => decide (p.1 ≤ now))).head?.map (fun p => p.1)) := by
  intro exps
  induction exps with
  | nil => intro entries; rfl
  | cons pr rest ih =>
    intro entries
    obtain ⟨when, key⟩ := pr
    simp only [purgeLoop]
    by_cases hlt : now < when
    · rw [if_pos hlt]
      have hc : (fun p : Nat × String => decide (p.1 ≤ now)) (when, key) = false := by
        simp
        omega
      simp [List.takeWhile_cons, List.dropWhile_cons, hc]
    · rw [if_neg hlt]
      have hc : (fun p : Nat × String => decide (p.1 ≤ now)) (when, key) = true := by
        simp
        omega
      simp only [List.takeWhile_cons, List.dropWhile_cons, hc, if_true, List.foldl_cons]
      exact ih (removeKey entries key)

theorem dropWhile_sorted_gt {now : Nat} :
    ∀ (l : List (Nat × String)), l.Pairwise (fun a b => a.1 ≤ b.1) →
      ∀ p ∈ l.dropWhile (fun q => decide (q.1 ≤ now)), now < p.1 := by
  intro l
  induction l with
  | nil => intro _ p hp; simp at hp
  | cons x xs ih =>
    intro hpw p hp
    rcases List.pairwise_cons.mp hpw with ⟨hx, hxs⟩
    by_cases hc : x.1 ≤ now
    · rw [List.dropWhile_cons, if_pos (by simpa using hc)] at hp
      exact ih hxs p hp
    · rw [List.dropWhile_cons, if_neg (by simpa using hc)] at hp
      rcases List.mem_cons.mp hp with h | h
      · subst h; omega
      · have := hx p h
        omega

theorem mem_takeWhile_le {now : Nat} :
    ∀ (l : List (Nat × String)),
      ∀ p ∈ l.takeWhile (fun q => decide (q.1 ≤ now)), p.1 ≤ now := by
  intro l
  induction l with
  | nil => intro p hp; simp at hp
  | cons x xs ih =>
    intro p hp
    by_cases hc : x.1 ≤ now
    · rw [List.takeWhile_cons, if_pos (by simpa using hc)] at hp
      rcases List.mem_cons.mp hp with h | h
      · subst h; exact hc
      · exact ih p h
    · rw [List.takeWhile_cons, if_neg (by simpa using hc)] at hp
      simp at hp

theorem foldl_removeKey_ne {k : String} :
    ∀ (ps : List (Nat × String)) (entries : String → Option Entry),
      (∀ p ∈ ps, p.2 ≠ k) →
      (ps.foldl (fun e p => removeKey e p.2) entries) k = entries k := by
  intro ps
  induction ps with
  | nil => intro entries _; rfl
  | cons q qs ih =>
    intro entries hne
    rw [List.foldl_cons]
    rw [ih (removeKey entries q.2) (fun p hp => hne p (List.mem_cons_of_mem q hp))]
    unfold removeKey
    rw [if_neg (fun hk => hne q (List.mem_cons_self q qs) hk.symm)]

theorem read_frame_eof_iff :
    ∀ (chunks : List (List Nat)) (buf : List Nat),
      read_frame buf chunks = .eof ↔
        buf = [] ∧ (chunks = [] ∨ ∃ cs, chunks = [] :: cs) := by
  intro chunks
  induction chunks with
  | nil =>
    intro buf
    simp only [read_frame]
    cases hp : parse_frame buf with
    | frame f rest =>
      simp only
      constructor
      · intro h; cases h
      · rintro ⟨hb, -⟩
        subst hb
        cases hp
    | needMore =>
      by_cases hb : buf = []
      · subst hb; simp
      · rw [if_neg hb]
        simp [hb]
    | fail e =>
      simp only
      constructor
      · intro h; cases h
      · rintro ⟨hb, -⟩
        subst hb
        cases hp
    | panic =>
      simp only
      constructor
      · intro h; cases h
      · rintro ⟨hb, -⟩
        subst hb
        cases hp
  | cons c cs ih =>
    intro buf
    simp only [read_frame]
    cases hp : parse_frame buf with
    | frame f rest =>
      simp only
      constructor
      · intro h; cases h
      · rintro ⟨hb, -⟩
        subst hb
        cases hp
    | needMore =>
      by_cases hc : c = []
      · subst hc
        by_cases hb : buf = []
        · subst hb
          simp
        · rw [if_pos rfl, if_neg hb]
          simp [hb]
      · rw [if_neg hc]
        rw [ih (buf ++ c)]
        constructor
        · rintro ⟨hbc, -⟩
          rcases List.append_eq_nil.mp hbc with ⟨-, hc2⟩
          exact absurd hc2 hc
        · rintro ⟨hb, hrest⟩
          rcases hrest with h | ⟨cs2, h⟩
          · cases h
          · injection h with h1 h2
            exact absurd h1 hc
    | fail e =>
      simp only
      constructor
      · intro h; cases h
      · rintro ⟨hb, -⟩
        subst hb
        cases hp
    | panic =>
      simp only
      constructor
      · intro h; cases h
      · rintro ⟨hb, -⟩
        subst hb
        cases hp

theorem read_frame_retains {buf : List Nat} {chunks : List (List Nat)}
    {f : Frame} {rest : List Nat} (hp : parse_frame buf = .frame f rest) :
    read_frame buf chunks = .frame f rest chunks := by
  cases chunks <;> simp [read_frame, hp]

theorem read_frame_reset {buf : List Nat} (hb : buf ≠ [])
    (hp : parse_frame buf = .needMore) : read_frame buf [] = .reset := by
  simp [read_frame, hp, hb]

theorem mem_of_mem_takeWhile {α : Type} {p : α → Bool} :
    ∀ {l : List α} {a : α}, a ∈ l.takeWhile p → a ∈ l := by
  intro l
  induction l with
  | nil => intro a h; simp at h
  | cons x xs ih =>
    intro a h
    rw [List.takeWhile_cons] at h
    by_cases hx : p x = true
    · rw [if_pos hx] at h
      rcases List.mem_cons.mp h with h | h
      · exact h ▸ List.mem_cons_self x xs
      · exact List.mem_cons_of_mem x (ih h)
    · rw [if_neg hx] at h
      simp at h

theorem mem_of_mem_dropWhile {α : Type} {p : α → Bool} :
    ∀ {l : List α} {a : α}, a ∈ l.dropWhile p → a ∈ l := by
  intro l
  induction l with
  | nil => intro a h; simp at h
  | cons x xs ih =>
    intro a h
    rw [List.dropWhile_cons] at h
    by_cases hx : p x = true
    · rw [if_pos hx] at h
      exact List.mem_cons_of_mem x (ih h)
    · rw [if_neg hx] at h
      exact h

/-- A key has no pair in the expiration index. -/
def keyFresh (st : State) (k : String) : Prop :=
  ∀ t, (t, k) ∉ st.expirations

/-- A key holds a value with no expiration and has no pair in the index. -/
def holdsVal (st : State) (k : String) (v : List Nat) : Prop :=
  st.entries k = some ⟨v, none⟩ ∧ keyFresh st k

theorem holdsVal_set_self {st : State} {k : String} {v : List Nat} {now : Nat}
    (hf : keyFresh st k) : holdsVal (Db.set st k v none now).1 k v := by
  constructor
  · simp [Db.set, insertEntry]
  · intro t ht
    simp only [Db.set, insertEntry] at ht
    cases hprev : st.entries k with
    | none =>
      rw [hprev] at ht
      exact hf t ht
    | some prev =>
      rw [hprev] at ht
      obtain ⟨pdata, pexp⟩ := prev
      cases pexp with
      | none => exact hf t (by simpa using ht)
      | some when => exact hf t (List.mem_of_mem_erase (by simpa using ht))

theorem holdsVal_applyOp {st : State} {k : String} {v : List Nat} {op : Op}
    (h : holdsVal st k v) (hop : op.isSetOn k = false) :
    holdsVal (applyOp st op) k v := by
  cases op with
  | set k2 v2 e2 n2 =>
    have hk2 : k2 ≠ k := by
      simpa [Op.isSetOn] using hop
    constructor
    · simp only [applyOp, Db.set, insertEntry]
      rw [if_neg (fun hh => hk2 hh.symm)]
      exact h.1
    · intro t ht
      simp only [applyOp, Db.set, insertEntry] at ht
      cases hprev : st.entries k2 with
      | none =>
        rw [hprev] at ht
        exact h.2 t ht
      | some prev =>
        rw [hprev] at ht
        obtain ⟨pdata, pexp⟩ := prev
        cases pexp with
        | none => exact h.2 t (by simpa using ht)
        | some when => exact h.2 t (List.mem_of_mem_erase (by simpa using ht))
  | purge n =>
    simp only [applyOp, Shared.purge_expired_keys]
    by_cases hs : st.shutdown
    · rw [if_pos hs]
      exact h
    · rw [if_neg hs]
      rw [purgeLoop_eq]
      constructor
      · simp only
        rw [foldl_removeKey_ne _ st.entries
          (fun p hp hpk => h.2 p.1 (by
            have := mem_of_mem_takeWhile hp
            have hpp : p = (p.1, k) := by
              cases p
              simp at hpk ⊢
              exact hpk
            rw [hpp] at this
            exact this))]
        exact h.1
      · intro t ht
        simp only at ht
        exact h.2 t (mem_of_mem_dropWhile ht)
  | subscribe ch =>
    exact h
  | publish =>
    exact h

theorem holdsVal_foldl {k : String} {v : List Nat} :
    ∀ (ops : List Op) (st : State), holdsVal st k v →
      (∀ op ∈ ops, op.isSetOn k = false) →
      holdsVal (ops.foldl applyOp st) k v := by
  intro ops
  induction ops with
  | nil => intro st h _; exact h
  | cons op rest ih =>
    intro st h hops
    rw [List.foldl_cons]
    exact ih (applyOp st op)
      (holdsVal_applyOp h (hops op (List.mem_cons_self op rest)))
      (fun o ho => hops o (List.mem_cons_of_mem op ho))

/-- C1: the claim says `set(k, v, Some(d))` inserts the new `(deadline, key)`
pair into `expirations` so the purge step removes the entry and `get(k)`
returns `None` once the deadline has passed.  The code never inserts the
pair: after `set("k", v, Some(10))` at time 0 the index is empty, the purge
pass at time 1000 removes nothing and returns no deadline, and `get` still
returns the value long after the deadline.  This theorem evaluates the code
at that failing input. -/
theorem set_with_ttl_never_purged :
    (Db.set initState "k" [118] (some 10) 0).1.entries "k" = some ⟨[118], some 10⟩ ∧
    (Db.set initState "k" [118] (some 10) 0).1.expirations = [] ∧
    Shared.purge_expired_keys (Db.set initState "k" [118] (some 10) 0).1 1000 =
      ((Db.set initState "k" [118] (some 10) 0).1, none) ∧
    Db.get (Shared.purge_expired_keys (Db.set initState "k" [118] (some 10) 0).1 1000).1 "k" =
      some [118] := by
  refine ⟨rfl, rfl, rfl, rfl⟩

/-- C2: the claim says the encoder emits the section 4.F wire grammar —
`'$' len CRLF data CRLF` for Bulk and `'-' text CRLF` for Error — and that
`parse` inverts `write_frame`.  The code omits the `'$'` tag byte for Bulk
(the emitted bytes are not even a checkable frame) and writes `'+'` instead
of `'-'` for Error (so an encoded Error parses back as Simple).  This
theorem evaluates the encoder at those failing inputs. -/
theorem write_frame_wire_format_bug :
    write_frame (.Bulk [98, 97, 114]) = some [51, 13, 10, 98, 97, 114, 13, 10] ∧
    write_frame (.Bulk [98, 97, 114]) ≠ some [36, 51, 13, 10, 98, 97, 114, 13, 10] ∧
    Frame.check [51, 13, 10, 98, 97, 114, 13, 10] = .err .protocol ∧
    write_value (.Error [111, 111, 112, 115]) = some [43, 111, 111, 112, 115, 13, 10] ∧
    Frame.parse [43, 111, 111, 112, 115, 13, 10] = .ok (.Simple [111, 111, 112, 115]) [] := by
  refine ⟨rfl, by decide, rfl, rfl, rfl⟩

/-- Invariant 1 of section 3 of the specification: a key has an entry with
`expires_at = Some(t)` exactly when `(t, key)` is in `expirations`. -/
def expirationsInv (st : State) : Prop :=
  ∀ k t, (∃ e, st.entries k = some e ∧ e.expires_at = some t) ↔ (t, k) ∈ st.expirations

/-- C3: the claim says every state-engine operation preserves the
entries/expirations correspondence at mutex release.  `Db::set` with an
expiration breaks it: starting from the initial state (where the invariant
holds), one `set("k", v, Some(10))` leaves an entry with
`expires_at = Some(10)` while `expirations` stays empty. -/
theorem set_breaks_expirations_invariant :
    expirationsInv initState ∧
    ¬ expirationsInv (Db.set initState "k" [118] (some 10) 0).1 := by
  constructor
  · intro k t
    constructor
    · rintro ⟨e, he, -⟩
      simp [initState] at he
    · intro ht
      simp [initState] at ht
  · intro hinv
    have hmem := (hinv "k" 10).mp ⟨⟨[118], some 10⟩, rfl, rfl⟩
    have hempty : (Db.set initState "k" [118] (some 10) 0).1.expirations = [] := rfl
    rw [hempty] at hmem
    simp at hmem

/-- C5: the claim says that when `purge_expired_keys` returns `None` (and
shutdown is not set) the worker waits indefinitely for a notification
before purging again.  In the source the `else` branch of the worker loop
is empty, so the loop re-enters the purge step immediately without any
await — a busy loop, not a wait. -/
theorem purge_worker_busy_loop :
    purge_expired_tasks_wait none = WorkerWait.immediate ∧
    purge_expired_tasks_wait none ≠ WorkerWait.waitNotify := by
  exact ⟨rfl, by decide⟩

/-- C7: `purge_expired_keys` holding the lock: under shutdown it returns
`None` with the state untouched; otherwise it removes exactly the leading
pairs with deadline at or before `now` (and their entries), keeps the rest,
and returns the deadline of the first remaining pair — which is strictly
after `now` — or `None` when the set empties. -/
theorem purge_expired_keys_spec (st : State) (now : Nat)
    (hsort : st.expirations.Pairwise (fun a b => a.1 ≤ b.1)) :
    (st.shutdown = true → Shared.purge_expired_keys st now = (st, none)) ∧
    (st.shutdown = false →
      (Shared.purge_expired_keys st now).1.entries =
        (st.expirations.takeWhile (fun p => decide (p.1 ≤ now))).foldl
          (fun e p => removeKey e p.2) st.entries ∧
      (Shared.purge_expired_keys st now).1.expirations =
        st.expirations.dropWhile (fun p => decide (p.1 ≤ now)) ∧
      (Shared.purge_expired_keys st now).2 =
        (st.expirations.dropWhile (fun p => decide (p.1 ≤ now))).head?.map (fun p => p.1) ∧
      (∀ p ∈ st.expirations.takeWhile (fun p => decide (p.1 ≤ now)), p.1 ≤ now) ∧
      (∀ p ∈ (Shared.purge_expired_keys st now).1.expirations, now < p.1) ∧
      (∀ t, (Shared.purge_expired_keys st now).2 = some t → now < t) ∧
      (Shared.purge_expired_keys st now).1.shutdown = st.shutdown) := by
  constructor
  · intro hs
    simp [Shared.purge_expired_keys, hs]
  · intro hs
    have hpu : Shared.purge_expired_keys st now =
        ({ st with
            entries := (st.expirations.takeWhile (fun p => decide (p.1 ≤ now))).foldl
              (fun e p => removeKey e p.2) st.entries,
            expirations := st.expirations.dropWhile (fun p => decide (p.1 ≤ now)) },
          (st.expirations.dropWhile (fun p => decide (p.1 ≤ now))).head?.map (fun p => p.1)) := by
      unfold Shared.purge_expired_keys
      rw [if_neg (by simp [hs])]
      rw [purgeLoop_eq]
    rw [hpu]
    refine ⟨rfl, rfl, rfl, fun p hp => mem_takeWhile_le st.expirations p hp, ?_, ?_, rfl⟩
    · intro p hp
      exact dropWhile_sorted_gt st.expirations hsort p hp
    · intro t ht
      simp only [Option.map_eq_some'] at ht
      rcases ht with ⟨p, hph, hpt⟩
      have hpm : p ∈ st.expirations.dropWhile (fun q => decide (q.1 ≤ now)) :=
        List.mem_of_mem_head? hph
      have := dropWhile_sorted_gt st.expirations hsort p hpm
      omega

/-- A concrete state exercising the purge step: three keys with deadlines
3, 5 and 9. -/
def stW : State where
  entries := fun k =>
    if k = "a" then some ⟨[1], some 3⟩
    else if k = "b" then some ⟨[2], some 5⟩
    else if k = "c" then some ⟨[3], some 9⟩
    else none
  pub_sub := fun _ => false
  expirations := [(3, "a"), (5, "b"), (9, "c")]
  shutdown := false

/-- C7 witness: purging `stW` at time 6 removes the entries for "a" and
"b", keeps "c", and returns the deadline 9. -/
theorem purge_expired_keys_spec_witness :
    (Shared.purge_expired_keys stW 6).2 = some 9 ∧
    (Shared.purge_expired_keys stW 6).1.expirations = [(9, "c")] ∧
    Db.get (Shared.purge_expired_keys stW 6).1 "a" = none ∧
    Db.get (Shared.purge_expired_keys stW 6).1 "c" = some [3] := by
  have h := purge_expired_keys_spec stW 6 (by decide)
  obtain ⟨he, hx, hr, -, -, -, -⟩ := h.2 rfl
  refine ⟨?_, ?_, ?_, ?_⟩
  · rw [hr]
    rfl
  · rw [hx]
    rfl
  · simp only [Db.get]
    rw [he]
    rfl
  · simp only [Db.get]
    rw [he]
    rfl

/-- C9: after `set(k, v, None)`, a `get(k)` returns `Some(v)` across any
sequence of state-engine operations none of which is a `set` on `k`
(sets on other keys, purge passes, subscribes and publishes), provided the
starting state carries no stray expiration pair for `k` (which is section
3 invariant 2 and holds in every reachable state). -/
theorem set_then_get_returns_value (st : State) (k : String) (v : List Nat)
    (now : Nat) (ops : List Op) (hf : ∀ t, (t, k) ∉ st.expirations)
    (hops : ∀ op ∈ ops, op.isSetOn k = false) :
    Db.get (ops.foldl applyOp (Db.set st k v none now).1) k = some v := by
  have h := holdsVal_foldl ops (Db.set st k v none now).1 (holdsVal_set_self hf) hops
  simp [Db.get, h.1]

/-- C9 witness: `set("k", [5, 6], None)` then a set on another key, a purge
pass, a subscribe and a publish; `get("k")` still returns `[5, 6]`. -/
theorem set_then_get_returns_value_witness :
    Db.get
      (([Op.set "other" [1] (some 5) 2, Op.purge 100, Op.subscribe "ch",
          Op.publish]).foldl applyOp (Db.set initState "k" [5, 6] none 0).1) "k" =
      some [5, 6] :=
  set_then_get_returns_value initState "k" [5, 6] 0
    [Op.set "other" [1] (some 5) 2, Op.purge 100, Op.subscribe "ch", Op.publish]
    (fun t => by simp [initState]) (by decide)

/-- C6: decimal decoding of a line (used for `':'` integers, `'$'` lengths
and `'*'` counts) returns an unsigned 64-bit value, and yields a protocol
error whenever the line is empty, contains a non-digit byte, or its value
overflows `u64`. -/
theorem get_decimal_spec (rem line rest : List Nat)
    (h : get_line rem = .ok line rest) :
    (∀ v rest2, get_decimal rem = .ok v rest2 →
      rest2 = rest ∧ v < 2 ^ 64 ∧ v = digitsVal line ∧ line ≠ [] ∧
        line.all isDigitByte = true) ∧
    ((line = [] ∨ line.all isDigitByte = false ∨ 2 ^ 64 ≤ digitsVal line) →
      get_decimal rem = .err .protocol) := by
  constructor
  · intro v rest2 hd
    unfold get_decimal at hd
    rw [h] at hd
    simp only [pbind] at hd
    cases ha : atoi line with
    | some w =>
      rw [ha] at hd
      simp only [okOr] at hd
      injection hd with hw hr
      rcases atoi_some ha with ⟨h1, h2, h3, h4⟩
      exact ⟨hr.symm, hw ▸ h2, hw ▸ h1, h3, h4⟩
    | none =>
      rw [ha] at hd
      simp [okOr] at hd
  · intro hbad
    unfold get_decimal
    rw [h]
    simp only [pbind]
    rw [atoi_none hbad]
    rfl

/-- C6 witness: the line "12a" contains a non-digit byte, so decoding the
buffer "12a\r\n" is a protocol error. -/
theorem get_decimal_spec_witness :
    get_decimal [49, 50, 97, 13, 10] = .err .protocol :=
  (get_decimal_spec [49, 50, 97, 13, 10] [49, 50, 97] [] rfl).2
    (Or.inr (Or.inl (by decide)))

/-- C8 amended: `read_frame` over a stream of chunks returns end-of-stream
exactly when a 0-byte read happens while the buffer is empty; a complete
buffered frame is returned at once with all further bytes retained (buffer
remainder and unread chunks); and a close on a non-empty buffer that the
check classifies as an incomplete frame (`parse_frame` returns `Ok(None)`)
fails with the "connection reset by peer" error.  The classification
proviso is forced by the counterexample above this clause: a buffer whose
bulk length wraps the `usize` `len + 2` makes the process panic instead. -/
theorem read_frame_spec (buf : List Nat) (chunks : List (List Nat)) :
    (read_frame buf chunks = .eof ↔
      buf = [] ∧ (chunks = [] ∨ ∃ cs, chunks = [] :: cs)) ∧
    (∀ f rest, parse_frame buf = .frame f rest →
      read_frame buf chunks = .frame f rest chunks) ∧
    (buf ≠ [] → parse_frame buf = .needMore → read_frame buf [] = .reset) :=
  ⟨read_frame_eof_iff chunks buf, fun _ _ hp => read_frame_retains hp,
    fun hb hp => read_frame_reset hb hp⟩

/-- C8 witness: a buffer holding "+OK\r\n" plus two extra bytes, with one
chunk still unread, yields the Simple frame and retains both the extra
buffered bytes and the unread chunk. -/
theorem read_frame_spec_witness :
    read_frame [43, 79, 75, 13, 10, 43, 88] [[13, 10]] =
      .frame (.Simple [79, 75]) [43, 88] [[13, 10]] :=
  (read_frame_spec [43, 79, 75, 13, 10, 43, 88] [[13, 10]]).2.1
    (.Simple [79, 75]) [43, 88] rfl

/-- C8 counterexample: the stream closes while the non-empty buffer holds
"$18446744073709551615\r\nX" — an incomplete bulk frame whose header
promises `2 ^ 64 - 1` payload bytes of which only one is present.  The
claim says `read_frame` fails with the "connection reset by peer" error;
instead the `usize` wrap (`len + 2` becomes 1) lets `check` accept the
header, `parse` panics at the payload slice `&src.bytes()[..len]`, and the
process panics before any close handling, producing neither the reset
error nor any other return. -/
theorem read_frame_close_wrap_panic :
    read_frame
        [36, 49, 56, 52, 52, 54, 55, 52, 52, 48, 55, 51, 55, 48, 57, 53, 53,
          49, 54, 49, 53, 13, 10, 88] [] = .panic ∧
    ([36, 49, 56, 52, 52, 54, 55, 52, 52, 48, 55, 51, 55, 48, 57, 53, 53,
      49, 54, 49, 53, 13, 10, 88] : List Nat) ≠ [] ∧
    RFRes.panic ≠ RFRes.reset := by
  refine ⟨rfl, by simp, by simp⟩

/-- C4 counterexample: on the buffer "$-2\r\n", `Frame::check` succeeds
(it skips four bytes after `'$'` `'-'` without validating them) while
`Frame::parse` rejects the length marker as a protocol error, so
"check succeeds iff parse succeeds" is false on this input. -/
theorem check_parse_negative_bulk_divergence :
    Frame.check [36, 45, 50, 13, 10] = .ok () [] ∧
    Frame.parse [36, 45, 50, 13, 10] = .err .protocol ∧
    ¬ ((∃ rest, Frame.check [36, 45, 50, 13, 10] = .ok () rest) ↔
      (∃ f rest, Frame.parse [36, 45, 50, 13, 10] = .ok f rest)) := by
  refine ⟨rfl, rfl, fun hiff => ?_⟩
  rcases hiff.mp ⟨[], rfl⟩ with ⟨f, rest, hfr⟩
  exact PRes.noConfusion
    (show (PRes.err FErr.protocol : PRes Frame) = PRes.ok f rest from hfr)

/-- C4 amended: whenever `Frame::parse` succeeds on a buffer,
`Frame::check` succeeds on the same buffer and advances the cursor by the
identical number of bytes (the same remaining suffix).  The converse fails:
`check` can succeed where `parse` returns a protocol error, e.g. a bulk
length marker that is negative but not exactly `-1` — only `parse`
restricts the `'$' '-'` case to the Null frame. -/
theorem parse_ok_implies_check_ok (buf : List Nat) (f : Frame)
    (rest : List Nat) (h : Frame.parse buf = .ok f rest) :
    Frame.check buf = .ok () rest :=
  checkF_of_parseF (buf.length + 1) buf f rest h

/-- C4 amended witness: parsing "*1\r\n:5\r\n" yields an array; checking
the same bytes succeeds and consumes them all. -/
theorem parse_ok_implies_check_ok_witness :
    Frame.check [42, 49, 13, 10, 58, 53, 13, 10] = .ok () [] :=
  parse_ok_implies_check_ok [42, 49, 13, 10, 58, 53, 13, 10]
    (.Array [.Integer 5]) [] rfl

/-- C10 counterexample: on the 23-byte buffer "$18446744073709551614\r\n"
(a bulk header whose length is `2 ^ 64 - 2`), `Frame::check` succeeds —
the `usize` computation `len + 2` wraps to 0, so `skip(0)` is a no-op —
and `Frame::parse` then panics indexing `&src.bytes()[..len]` on the empty
remainder.  So "check succeeds implies parse never panics" is false at this
input. -/
theorem checked_wrap_bulk_parse_panic :
    Frame.check
        [36, 49, 56, 52, 52, 54, 55, 52, 52, 48, 55, 51, 55, 48, 57, 53, 53,
          49, 54, 49, 52, 13, 10] = .ok () [] ∧
    Frame.parse
        [36, 49, 56, 52, 52, 54, 55, 52, 52, 48, 55, 51, 55, 48, 57, 53, 53,
          49, 54, 49, 52, 13, 10] = .panic .sliceOOB := by
  exact ⟨rfl, rfl⟩

/-- C10 amended: on any buffer where `Frame::check` succeeds from position
0, `Frame::parse` never reaches the `unimplemented!()` arm for an
unrecognised tag byte: it returns a parsed frame, an `Err` value, or — only
when a decoded bulk length is at least `2 ^ 64 - 2`, so that the `usize`
addition `len + 2` wraps — the out-of-bounds panic at the payload slice
`&src.bytes()[..len]`. -/
theorem check_ok_parse_no_unimplemented (buf rest : List Nat)
    (h : Frame.check buf = .ok () rest) :
    (∃ f rest2, Frame.parse buf = .ok f rest2) ∨
      (∃ e, Frame.parse buf = .err e) ∨
      Frame.parse buf = .panic .sliceOOB := by
  have hnp := parseF_ne_unimp (buf.length + 1) buf rest h
  have hnf := parseF_ne_fuelOut (buf.length + 1) buf (Nat.lt_succ_self _)
  cases hp : Frame.parse buf with
  | ok f r => exact Or.inl ⟨f, r, rfl⟩
  | err e => exact Or.inr (Or.inl ⟨e, rfl⟩)
  | panic pk =>
    cases pk with
    | unimplementedTag => exact absurd hp hnp
    | sliceOOB => exact Or.inr (Or.inr rfl)
  | fuelOut => exact absurd hp hnf

/-- C10 amended witness: "$-1\r\n" passes `check`; `parse` returns the
Null frame rather than panicking. -/
theorem check_ok_parse_no_unimplemented_witness :
    (∃ f rest2, Frame.parse [36, 45, 49, 13, 10] = .ok f rest2) ∨
      (∃ e, Frame.parse [36, 45, 49, 13, 10] = .err e) ∨
      Frame.parse [36, 45, 49, 13, 10] = .panic .sliceOOB :=
  check_ok_parse_no_unimplemented [36, 45, 49, 13, 10] [] rfl
